import Mathlib

/-!
Shallow embedding of the crossword CSP solver (`generate.py`) and of the
external crossword model it consumes, together with theorems settling the
spec's claims about it.

Conventions of the embedding:
* Python sets/lists of words become Lean `List`s; the per-variable domain
  store `self.domains` becomes a function `Variable → List Word`.
* The mutable `assignment` dict becomes an association list threaded
  explicitly; `backtrack` returns both the Python return value and the
  state of the dict after the call.
* Unbounded loops (`while` in `ac3`, recursion in `backtrack`) take a fuel
  argument; `solve` instantiates the fuel with bounds that dominate the
  Python loop/recursion counts.
* Python string indexing `w[i]` (which may raise) is embedded as the total
  `w.get? i : Option Char`; two in-range positions agree exactly when the
  options are equal.
-/

/-- Modelled from the spec: the `Variable` class of the external `crossword`
module (not among the core sources) — a slot with start row, start column,
length in letters, and one of two orientations. Identity is structural. -/
structure Variable where
  row : Nat
  col : Nat
  length : Nat
  down : Bool
deriving DecidableEq, Repr

/-- A vocabulary word, as its sequence of letters. -/
abbrev Word := List Char

/-- The per-variable domain store `self.domains`. -/
abbrev Domains := Variable → List Word

/-- Modelled from the spec: the external crossword model (the `Crossword`
class of `crossword.py`, not among the core sources): the variable set, the
vocabulary, the overlap query and the neighbor query. -/
structure Crossword where
  vars : List Variable
  words : List Word
  overlaps : Variable → Variable → Option (Nat × Nat)
  neighbors : Variable → List Variable

/-- The assignment dict: a key/value list with (by construction) distinct keys. -/
abbrev Assignment := List (Variable × Word)

/-- `k in assignment` (dict key membership). -/
def containsKey (a : Assignment) (k : Variable) : Bool :=
  a.any (fun p => p.1 == k)

/-- `assignment[k]` (dict lookup). -/
def lookupVal (a : Assignment) (k : Variable) : Option Word :=
  (a.find? (fun p => p.1 == k)).map (fun p => p.2)

/-- `assignment.values()`. -/
def dictValues (a : Assignment) : List Word :=
  a.map (fun p => p.2)

/-- `assignment[k] = w` (dict write: overwrite in place, or append a new binding). -/
def dictInsert (a : Assignment) (k : Variable) (w : Word) : Assignment :=
  if containsKey a k then a.map (fun p => if p.1 == k then (k, w) else p)
  else a ++ [(k, w)]

/-- `assignment.pop(k)` (dict key removal). -/
def dictPop (a : Assignment) (k : Variable) : Assignment :=
  a.filter (fun p => !(p.1 == k))

/-- `CrosswordCreator.__init__`: every variable starts with a full copy of
the vocabulary. -/
def init_domains (cw : Crossword) : Domains := fun _ => cw.words

/-- `enforce_node_consistency`: remove from every variable's domain the words
whose length differs from the variable's slot length. -/
def enforce_node_consistency (dom : Domains) : Domains :=
  fun node => (dom node).filter (fun word => word.length == node.length)

/-- `revise x y`: drop from `domains[x]` every value with no support in
`domains[y]`; a supporting `check` must differ from the value and agree with
it at the overlap offsets.  Returns the revised-flag together with the
updated domain store.  (`overlaps[(x, y)]` is only indexed on neighbor arcs,
where it is non-`None`; the `none` branch is unreachable from `ac3`.) -/
def revise (cw : Crossword) (dom : Domains) (x y : Variable) : Bool × Domains :=
  match cw.overlaps x y with
  | none => (false, dom)
  | some c =>
    let domain_2 := dom y
    let keep : Word → Bool := fun possible_value =>
      domain_2.any (fun check =>
        !(possible_value == check) && (possible_value.get? c.1 == check.get? c.2))
    ((dom x).any (fun possible_value => !(keep possible_value)),
     fun z => if z = x then (dom x).filter keep else dom z)

/-- The initial worklist of `ac3` when called with `arcs=None`:
`[(var, neighbor) for var in domains for neighbor in neighbors(var) if neighbor != var]`. -/
def initial_arcs (cw : Crossword) : List (Variable × Variable) :=
  cw.vars.flatMap (fun var =>
    ((cw.neighbors var).filter (fun neighbor => !(neighbor == var))).map
      (fun neighbor => (var, neighbor)))

/-- `ac3`: process the worklist FIFO; re-enqueue `(neighbor, x)` for every
neighbor of `x` other than `y` after a revision of `x`; fail as soon as a
revision empties a domain.  The fuel stands in for the unbounded `while`
loop; the `0` branch is unreachable for the bound used by `solve`. -/
def ac3 (cw : Crossword) : Nat → Domains → List (Variable × Variable) → Bool × Domains
  | 0, dom, _ => (false, dom)
  | _ + 1, dom, [] => (true, dom)
  | fuel + 1, dom, (x, y) :: rest =>
    let r := revise cw dom x y
    if r.1 then
      if (r.2 x).length = 0 then (false, r.2)
      else
        ac3 cw fuel r.2
          (rest ++ ((cw.neighbors x).filter (fun neighbor => !(neighbor == y))).map
            (fun neighbor => (neighbor, x)))
    else
      ac3 cw fuel r.2 rest

/-- `assignment_complete`: every variable of the domain store is a key. -/
def assignment_complete (cw : Crossword) (assignment : Assignment) : Bool :=
  cw.vars.all (fun i => containsKey assignment i)

/-- `consistent`: every assigned value lies in its variable's domain, and
every assigned neighbor pair with a real overlap agrees on the shared
letter. -/
def consistent (cw : Crossword) (dom : Domains) (assignment : Assignment) : Bool :=
  assignment.all (fun p =>
    (dom p.1).contains p.2 &&
    ((cw.neighbors p.1).filter (fun neighbor => containsKey assignment neighbor)).all
      (fun neighbor =>
        match cw.overlaps p.1 neighbor with
        | none => true
        | some c =>
          p.2.get? c.1 == ((lookupVal assignment neighbor).getD []).get? c.2))

/-- `order_domain_values`: bucket the domain of `var` by conflict count over
the neighbors' domains, then concatenate the buckets by ascending count.
Python returns the non-list `False` when `var` is already assigned, embedded
here as `none`.  (`counts_dict` keeps first-occurrence key order before
`.sort()`; only its key *set* matters after the ascending sort, so `dedup`
followed by an ascending sort models the sorted key list.) -/
def order_domain_values (cw : Crossword) (dom : Domains) (var : Variable)
    (assignment : Assignment) : Option (List Word) :=
  if containsKey assignment var then none
  else
    let the_neighbors := cw.neighbors var
    let possible_values := dom var
    let neighboring_values := the_neighbors.flatMap (fun neighbor => dom neighbor)
    let sorted_counts :=
      ((possible_values.map (fun v => neighboring_values.count v)).dedup).insertionSort
        (· ≤ ·)
    some (sorted_counts.flatMap (fun c =>
      possible_values.filter (fun v => neighboring_values.count v == c)))

/-- `len(values) < min_remaining_values`, where `none` embeds `float("inf")`. -/
def ltInf (n : Nat) : Option Nat → Bool
  | none => true
  | some m => decide (n < m)

/-- `len(values) == min_remaining_values`, where `none` embeds `float("inf")`. -/
def eqInf (n : Nat) : Option Nat → Bool
  | none => false
  | some m => n == m

/-- Loop body of the candidate-collection loop of
`select_unassigned_variable`: the state carries `candidates` and the
never-written `min_remaining_values`. -/
def select_step (dom : Domains) (assignment : Assignment)
    (st : List Variable × Option Nat) (i : Variable) : List Variable × Option Nat :=
  if containsKey assignment i then st
  else
    let values := dom i
    let st1 := if ltInf values.length st.2 then ([i], st.2) else st
    if eqInf values.length st1.2 then (st1.1 ++ [i], st1.2) else st1

/-- `select_unassigned_variable`.  The reference code never updates
`min_remaining_values` (it stays `float("inf")`, embedded as `none`) nor
`highest_degree` (it stays `-1`); both loops are embedded verbatim as folds
carrying those never-written variables. -/
def select_unassigned_variable (cw : Crossword) (dom : Domains)
    (assignment : Assignment) : Option Variable :=
  let candidates := (cw.vars.foldl (select_step dom assignment) ([], none)).1
  if candidates.length == 1 then candidates.head?
  else
    (candidates.foldl (fun st i =>
        if ((cw.neighbors i).length : Int) > st.2 then (some i, st.2) else st)
      ((none : Option Variable), (-1 : Int))).1

/-- The `for value in value_candidates` loop of `backtrack`: skip values
already used by another variable, tentatively bind, recurse (`bt` is the
recursive `backtrack` call at the next depth), and unbind on failure. -/
def try_values (bt : Assignment → Option Assignment × Assignment) (var : Variable) :
    Assignment → List Word → Option Assignment × Assignment
  | assignment, [] => (none, assignment)
  | assignment, value :: rest =>
    if (dictValues assignment).contains value then
      try_values bt var assignment rest
    else
      let r := bt (dictInsert assignment var value)
      match r.1 with
      | some is_done => (some is_done, r.2)
      | none => try_values bt var (dictPop r.2 var) rest

/-- `backtrack`.  The first component is the Python return value (`none` =
`None`); the second models the in-place state of the `assignment` dict when
the call returns.  The fuel bounds the recursion depth (one level per newly
bound variable); `solve` passes a bound that the Python recursion never
exceeds.  The two `(some assignment, assignment)` branches embed the
reference defect: a falsy candidate sequence (`False` or `[]`) returns the
current, possibly incomplete, assignment. -/
def backtrack (cw : Crossword) (dom : Domains) :
    Nat → Assignment → Option Assignment × Assignment
  | 0, assignment => (none, assignment)
  | fuel + 1, assignment =>
    if !(consistent cw dom assignment) then (none, assignment)
    else if assignment_complete cw assignment then (some assignment, assignment)
    else
      match select_unassigned_variable cw dom assignment with
      | none => (none, assignment)
      | some possible_assignment =>
        match order_domain_values cw dom possible_assignment assignment with
        | none => (some assignment, assignment)
        | some [] => (some assignment, assignment)
        | some (value :: rest) =>
          try_values (backtrack cw dom fuel) possible_assignment assignment
            (value :: rest)

/-- Fuel bound for the `ac3` worklist loop inside `solve`: each iteration
either pops an arc without revising, or removes at least one word while
enqueueing at most one arc per neighbor, so this bound dominates the Python
loop's iteration count. -/
def ac3_fuel (cw : Crossword) (dom : Domains) (arcs : List (Variable × Variable)) : Nat :=
  arcs.length + 1 +
    ((cw.vars.map (fun v => (dom v).length)).sum + 1) *
      ((cw.vars.map (fun v => (cw.neighbors v).length)).sum + 1)

/-- `solve`: node consistency, then `ac3` — whose Boolean result is
discarded, exactly as in the source — then backtracking search from the
empty assignment. -/
def solve (cw : Crossword) : Option Assignment :=
  let dom1 := enforce_node_consistency (init_domains cw)
  let arcs := initial_arcs cw
  let dom2 := (ac3 cw (ac3_fuel cw dom1 arcs) dom1 arcs).2
  (backtrack cw dom2 (cw.vars.length + 1) []).1

/-- The binary overlap constraint of the spec (§3): no constraint, or
agreement of the letters at the stored offsets. -/
def overlapAgrees : Option (Nat × Nat) → Word → Word → Prop
  | none, _, _ => True
  | some c, v, w => v.get? c.1 = w.get? c.2

instance (o : Option (Nat × Nat)) (v w : Word) : Decidable (overlapAgrees o v w) := by
  cases o with
  | none => exact isTrue trivial
  | some c => exact inferInstanceAs (Decidable (v.get? c.1 = w.get? c.2))

/-- The spec's notion of a valid complete solution (§8, "Soundness of
failure"): a total choice of vocabulary words with matching lengths,
agreement on every neighbor overlap, and pairwise-distinct words. -/
def ValidSolution (cw : Crossword) (S : Variable → Word) : Prop :=
  (∀ v ∈ cw.vars, S v ∈ cw.words ∧ (S v).length = v.length) ∧
  (∀ x ∈ cw.vars, ∀ y ∈ cw.neighbors x, overlapAgrees (cw.overlaps x y) (S x) (S y)) ∧
  (∀ x ∈ cw.vars, ∀ y ∈ cw.vars, x ≠ y → S x ≠ S y)

/-- Well-formedness of the external model, from §3 of the spec: distinct
variables; neighbors drawn from the variable set; no variable neighbors
itself; the neighbor relation is symmetric; overlap constraints are stored
symmetrically (swapped offsets in the swapped direction). -/
def Crossword.WF (cw : Crossword) : Prop :=
  cw.vars.Nodup ∧
  (∀ x ∈ cw.vars, ∀ y ∈ cw.neighbors x, y ∈ cw.vars) ∧
  (∀ x ∈ cw.vars, x ∉ cw.neighbors x) ∧
  (∀ x ∈ cw.vars, ∀ y ∈ cw.neighbors x, x ∈ cw.neighbors y) ∧
  (∀ x ∈ cw.vars, ∀ y ∈ cw.vars,
    cw.overlaps y x = (cw.overlaps x y).map (fun c => (c.2, c.1)))

instance (cw : Crossword) : Decidable cw.WF := by
  unfold Crossword.WF
  infer_instance

/-! ### Basic bridging lemmas -/

theorem containsKey_iff {a : Assignment} {k : Variable} :
    containsKey a k = true ↔ ∃ p ∈ a, p.1 = k := by
  simp [containsKey]

theorem mem_dictValues {a : Assignment} {w : Word} :
    w ∈ dictValues a ↔ ∃ p ∈ a, p.2 = w := by
  simp [dictValues, eq_comm]

/-! ### C5: characterization of `revise` -/

/-- The support test of `revise` as a proposition. -/
theorem revise_keep_iff {dy : List Word} {v : Word} {ix iy : Nat} :
    (dy.any (fun check => !(v == check) && (v.get? ix == check.get? iy))) = true ↔
      ∃ w ∈ dy, w ≠ v ∧ v.get? ix = w.get? iy := by
  simp only [List.any_eq_true, Bool.and_eq_true, Bool.not_eq_true', beq_eq_false_iff_ne,
    beq_iff_eq, ne_eq]
  exact ⟨fun ⟨w, hw, h1, h2⟩ => ⟨w, hw, fun h => h1 h.symm, h2⟩,
    fun ⟨w, hw, h1, h2⟩ => ⟨w, hw, fun h => h1 h.symm, h2⟩⟩

/-- C5: for a neighbor pair with overlap offsets `(ix, iy)`, `revise x y`
removes from `domain(x)` exactly the values with no distinct supporting word
in `domain(y)` agreeing at the offsets, leaves every other domain untouched,
and reports `true` iff at least one value was removed. -/
theorem revise_characterization (cw : Crossword) (dom : Domains) (x y : Variable)
    (ix iy : Nat) (h : cw.overlaps x y = some (ix, iy)) :
    (∀ v : Word, v ∈ (revise cw dom x y).2 x ↔
      v ∈ dom x ∧ ∃ w ∈ dom y, w ≠ v ∧ v.get? ix = w.get? iy) ∧
    (∀ z : Variable, z ≠ x → (revise cw dom x y).2 z = dom z) ∧
    ((revise cw dom x y).1 = true ↔
      ∃ v ∈ dom x, ¬ ∃ w ∈ dom y, w ≠ v ∧ v.get? ix = w.get? iy) := by
  unfold revise
  rw [h]
  refine ⟨fun v => ?_, fun z hz => ?_, ?_⟩
  · simp only [if_pos, List.mem_filter, revise_keep_iff, eq_self_iff_true, if_true]
  · simp only [if_neg hz]
  · simp only [List.any_eq_true, Bool.not_eq_true']
    constructor
    · rintro ⟨v, hv, hk⟩
      refine ⟨v, hv, fun hsup => ?_⟩
      rw [revise_keep_iff.2 hsup] at hk
      exact Bool.noConfusion hk
    · rintro ⟨v, hv, hk⟩
      refine ⟨v, hv, ?_⟩
      cases hkeep : (dom y).any (fun check => !(v == check) && (v.get? ix == check.get? iy)) with
      | false => rfl
      | true => exact absurd (revise_keep_iff.1 hkeep) hk

/-! ### Concrete fixture models -/

/-- A length-3 across slot. -/
def varA : Variable := ⟨0, 0, 3, false⟩

/-- A length-3 down slot crossing `varA`. -/
def varB : Variable := ⟨0, 0, 3, true⟩

/-- A length-2 slot. -/
def varC : Variable := ⟨1, 0, 2, false⟩

/-- Another length-2 slot, not crossing `varC`. -/
def varD : Variable := ⟨2, 0, 2, false⟩

/-- One variable of length 3; the vocabulary has no word of length 3. -/
def cwOneVar : Crossword :=
  { vars := [varA]
    words := [['a', 'b']]
    overlaps := fun _ _ => none
    neighbors := fun _ => [] }

/-- The domain store of `cwOneVar` after node consistency (it is empty). -/
def domOneVar : Domains := enforce_node_consistency (init_domains cwOneVar)

/-- The spec's unsatisfiable crossing scenario: two length-3 slots crossing
at offsets (0, 0) with vocabulary {"cat", "dog"}; the shared letters can
never agree, so AC-3 empties a domain. -/
def cwClash : Crossword :=
  { vars := [varA, varB]
    words := [['c', 'a', 't'], ['d', 'o', 'g']]
    overlaps := fun x y =>
      if x = varA ∧ y = varB then some (0, 0)
      else if x = varB ∧ y = varA then some (0, 0)
      else none
    neighbors := fun x => if x = varA then [varB] else if x = varB then [varA] else [] }

/-- The domain store of `cwClash` after node consistency. -/
def domClash : Domains := enforce_node_consistency (init_domains cwClash)

/-- Two non-crossing slots with distinct domain sizes, for exercising
`select_unassigned_variable`. -/
def cwSelect : Crossword :=
  { vars := [varA, varB]
    words := [['c', 'a', 't'], ['d', 'o', 'g']]
    overlaps := fun _ _ => none
    neighbors := fun _ => [] }

/-- Domain store giving `varA` one candidate and `varB` two. -/
def domSelect : Domains :=
  fun v => if v = varA then [['c', 'a', 't']] else [['c', 'a', 't'], ['d', 'o', 'g']]

/-- Two non-crossing length-2 slots with a one-word vocabulary: every
complete assignment would repeat the word, so no valid solution exists, and
the search genuinely exhausts. -/
def cwNoCross : Crossword :=
  { vars := [varC, varD]
    words := [['a', 'b']]
    overlaps := fun _ _ => none
    neighbors := fun _ => [] }

/-! ### C1–C4: the code defects, exhibited on the fixtures -/

/-- C1: refuted by the code.  On `cwOneVar`, `solve` returns the non-`None`
empty assignment, which is not complete — the empty-candidate-sequence
defect of `backtrack` escapes through `solve`, so a returned assignment need
not be complete. -/
theorem solve_returns_incomplete_assignment :
    solve cwOneVar = some [] ∧ assignment_complete cwOneVar [] = false := by
  constructor
  · decide
  · decide

/-- C2: refuted by the code.  On `cwOneVar` the ordered candidate sequence
of the selected variable is empty, yet `backtrack` returns the current
(incomplete) assignment instead of the `None` sentinel. -/
theorem backtrack_empty_candidates_returns_assignment :
    select_unassigned_variable cwOneVar domOneVar [] = some varA ∧
    order_domain_values cwOneVar domOneVar varA [] = some [] ∧
    backtrack cwOneVar domOneVar 2 [] = (some [], []) ∧
    assignment_complete cwOneVar [] = false := by
  refine ⟨by decide, by decide, by decide, by decide⟩

/-- C3: refuted by the code.  On `cwClash`, the `ac3` call made by `solve`
returns `false` (a domain was emptied), yet `solve` — which discards that
Boolean — still enters backtracking search and returns a non-`None`,
incomplete assignment instead of the "no solution" signal. -/
theorem solve_ignores_ac3_failure :
    (ac3 cwClash (ac3_fuel cwClash domClash (initial_arcs cwClash)) domClash
        (initial_arcs cwClash)).1 = false ∧
    solve cwClash = some [(varB, ['c', 'a', 't'])] ∧
    assignment_complete cwClash [(varB, ['c', 'a', 't'])] = false := by
  refine ⟨by decide, by decide, by decide⟩

/-- C4: refuted by the code.  `min_remaining_values` is never updated, so
`select_unassigned_variable` returns the last unassigned variable: on
`cwSelect`/`domSelect` it returns `varB` although the unassigned `varA` has
a strictly smaller current domain. -/
theorem select_ignores_domain_sizes :
    select_unassigned_variable cwSelect domSelect [] = some varB ∧
    (domSelect varA).length < (domSelect varB).length ∧
    containsKey [] varA = false := by
  refine ⟨by decide, by decide, by decide⟩

/-- Witness for C5: the characterization of `revise`, instantiated on the
crossing fixture `cwClash` at overlap offsets (0, 0). -/
theorem revise_characterization_witness :
    cwClash.overlaps varA varB = some (0, 0) ∧
    ((∀ v : Word, v ∈ (revise cwClash domClash varA varB).2 varA ↔
        v ∈ domClash varA ∧ ∃ w ∈ domClash varB, w ≠ v ∧ v.get? 0 = w.get? 0) ∧
     (∀ z : Variable, z ≠ varA → (revise cwClash domClash varA varB).2 z = domClash z) ∧
     ((revise cwClash domClash varA varB).1 = true ↔
        ∃ v ∈ domClash varA, ¬ ∃ w ∈ domClash varB, w ≠ v ∧ v.get? 0 = w.get? 0)) :=
  ⟨by decide, revise_characterization cwClash domClash varA varB 0 0 (by decide)⟩

/-! ### C8: the length invariant and its preservation -/

/-- The spec's length invariant (§8): every remaining candidate word in
every variable's domain has exactly that variable's slot length. -/
def LenOK (dom : Domains) : Prop :=
  ∀ v : Variable, ∀ w ∈ dom v, w.length = v.length

/-- `revise` only ever removes words: each resulting domain is a subset of
the original one. -/
theorem revise_subset (cw : Crossword) (dom : Domains) (x y z : Variable)
    {w : Word} (hw : w ∈ (revise cw dom x y).2 z) : w ∈ dom z := by
  unfold revise at hw
  rcases hov : cw.overlaps x y with _ | c
  · rw [hov] at hw
    exact hw
  · rw [hov] at hw
    dsimp only at hw
    by_cases hz : z = x
    · subst hz
      rw [if_pos rfl] at hw
      exact (List.mem_filter.1 hw).1
    · rw [if_neg hz] at hw
      exact hw

theorem revise_LenOK (cw : Crossword) {dom : Domains} (x y : Variable)
    (h : LenOK dom) : LenOK (revise cw dom x y).2 :=
  fun v w hw => h v w (revise_subset cw dom x y v hw)

theorem ac3_LenOK (cw : Crossword) : ∀ (fuel : Nat) (dom : Domains)
    (arcs : List (Variable × Variable)), LenOK dom → LenOK (ac3 cw fuel dom arcs).2
  | 0, dom, _, h => h
  | _ + 1, dom, [], h => h
  | fuel + 1, dom, (x, y) :: rest, h => by
    show LenOK (ac3 cw (fuel + 1) dom ((x, y) :: rest)).2
    rw [ac3]
    split
    · split
      · exact revise_LenOK cw x y h
      · exact ac3_LenOK cw fuel _ _ (revise_LenOK cw x y h)
    · exact ac3_LenOK cw fuel _ _ (revise_LenOK cw x y h)

/-- C8: after `enforce_node_consistency`, every remaining word has exactly
its variable's slot length, and both `revise` and `ac3` (which only remove
words) preserve this invariant. -/
theorem length_invariant (cw : Crossword) (dom : Domains) (x y : Variable)
    (fuel : Nat) (arcs : List (Variable × Variable)) :
    (∀ dom0 : Domains, LenOK (enforce_node_consistency dom0)) ∧
    (LenOK dom → LenOK (revise cw dom x y).2) ∧
    (LenOK dom → LenOK (ac3 cw fuel dom arcs).2) := by
  refine ⟨fun dom0 v w hw => ?_, fun h => revise_LenOK cw x y h,
    fun h => ac3_LenOK cw fuel dom arcs h⟩
  have := (List.mem_filter.1 hw).2
  simpa using this

/-- Witness for C8, on the crossing fixture: the post-node-consistency
store satisfies the invariant and keeps satisfying it through `revise` and
`ac3`. -/
theorem length_invariant_witness :
    LenOK domClash ∧ LenOK (revise cwClash domClash varA varB).2 ∧
    LenOK (ac3 cwClash 9 domClash (initial_arcs cwClash)).2 := by
  have h1 : LenOK domClash :=
    (length_invariant cwClash domClash varA varB 9 (initial_arcs cwClash)).1
      (init_domains cwClash)
  exact ⟨h1,
    (length_invariant cwClash domClash varA varB 9 (initial_arcs cwClash)).2.1 h1,
    (length_invariant cwClash domClash varA varB 9 (initial_arcs cwClash)).2.2 h1⟩

/-! ### C9: idempotence of preprocessing -/

theorem enforce_node_consistency_idem (dom : Domains) :
    enforce_node_consistency (enforce_node_consistency dom) = enforce_node_consistency dom := by
  funext v
  simp [enforce_node_consistency, List.filter_filter]

/-- Unfolding equation of `revise` on a real overlap. -/
theorem revise_eq_some (cw : Crossword) (dom : Domains) (x y : Variable) {i j : Nat}
    (h : cw.overlaps x y = some (i, j)) :
    revise cw dom x y =
      ((dom x).any (fun v => !((dom y).any (fun w => !(v == w) && (v.get? i == w.get? j)))),
       fun z => if z = x then
         (dom x).filter (fun v => (dom y).any (fun w => !(v == w) && (v.get? i == w.get? j)))
       else dom z) := by
  unfold revise
  rw [h]

/-- Unfolding equation of `revise` on a missing overlap. -/
theorem revise_eq_none (cw : Crossword) (dom : Domains) (x y : Variable)
    (h : cw.overlaps x y = none) : revise cw dom x y = (false, dom) := by
  unfold revise
  rw [h]

/-- Domains other than `x`'s are untouched by `revise x y`. -/
theorem revise_frame (cw : Crossword) (dom : Domains) (x y z : Variable)
    (hz : z ≠ x) : (revise cw dom x y).2 z = dom z := by
  rcases hov : cw.overlaps x y with _ | ⟨i, j⟩
  · rw [revise_eq_none cw dom x y hov]
  · rw [revise_eq_some cw dom x y hov]
    exact if_neg hz

/-- A run of `revise` that reports no change leaves the domain store intact. -/
theorem revise_unchanged (cw : Crossword) (dom : Domains) (x y : Variable)
    (h : (revise cw dom x y).1 = false) : (revise cw dom x y).2 = dom := by
  rcases hov : cw.overlaps x y with _ | ⟨i, j⟩
  · rw [revise_eq_none cw dom x y hov]
  · rw [revise_eq_some cw dom x y hov] at h ⊢
    dsimp only at h ⊢
    funext z
    by_cases hz : z = x
    · subst hz
      rw [if_pos rfl]
      rw [List.any_eq_false] at h
      refine List.filter_eq_self.2 (fun v hv => ?_)
      have := h v hv
      simpa using this
    · exact if_neg hz

/-- `revise` changed something only if the overlap was real. -/
theorem revise_changed_overlap (cw : Crossword) (dom : Domains) (x y : Variable)
    (h : (revise cw dom x y).1 = true) : ∃ c, cw.overlaps x y = some c := by
  rcases hov : cw.overlaps x y with _ | c
  · rw [revise_eq_none cw dom x y hov] at h
    exact Bool.noConfusion h
  · exact ⟨c, rfl⟩

/-- Arc `(x, y)` is stable under `dom`: `revise x y` would remove nothing. -/
def StableArc (cw : Crossword) (dom : Domains) (x y : Variable) : Prop :=
  (revise cw dom x y).1 = false

/-- Stability of `(x, y)` survives shrinking `x`'s domain and keeping `y`'s. -/
theorem StableArc_mono (cw : Crossword) {dom dom' : Domains} {x y : Variable}
    (hx : ∀ w ∈ dom' x, w ∈ dom x) (hy : dom' y = dom y)
    (h : StableArc cw dom x y) : StableArc cw dom' x y := by
  unfold StableArc at h ⊢
  rcases hov : cw.overlaps x y with _ | ⟨i, j⟩
  · rw [revise_eq_none cw dom' x y hov]
  · rw [revise_eq_some cw dom x y hov] at h
    rw [revise_eq_some cw dom' x y hov]
    dsimp only at h ⊢
    rw [List.any_eq_false] at h ⊢
    intro v hv
    have := h v (hx v hv)
    rw [hy]
    exact this

/-- Right after `revise x y` runs, the arc `(x, y)` is stable. -/
theorem revise_post_stable (cw : Crossword) (dom : Domains) {x y : Variable}
    (hne : y ≠ x) : StableArc cw (revise cw dom x y).2 x y := by
  unfold StableArc
  rcases hov : cw.overlaps x y with _ | ⟨i, j⟩
  · have hd := revise_eq_none cw dom x y hov
    rw [hd]
    rw [revise_eq_none cw dom x y hov]
  · have hd : (revise cw dom x y).2 = fun z => if z = x then
        (dom x).filter (fun v => (dom y).any (fun w => !(v == w) && (v.get? i == w.get? j)))
        else dom z := by
      rw [revise_eq_some cw dom x y hov]
    rw [revise_eq_some cw _ x y hov]
    dsimp only
    rw [hd]
    dsimp only
    rw [if_pos rfl, if_neg (fun hyx : y = x => hne hyx)]
    rw [List.any_eq_false]
    intro v hv
    have := (List.mem_filter.1 hv).2
    simpa using this

/-- The reverse arc `(y, x)` stays stable after `revise x y`: a value of
`domain(y)` whose support `w` in `domain(x)` was removed would itself have
supported `w`, so `w` was not removed. -/
theorem revise_reverse_stable (cw : Crossword) (dom : Domains) {x y : Variable}
    {i j : Nat} (hxy : cw.overlaps x y = some (i, j))
    (hyx : cw.overlaps y x = some (j, i)) (hne : y ≠ x)
    (h : StableArc cw dom y x) : StableArc cw (revise cw dom x y).2 y x := by
  unfold StableArc at h ⊢
  have hd : (revise cw dom x y).2 = fun z => if z = x then
      (dom x).filter (fun v => (dom y).any (fun w => !(v == w) && (v.get? i == w.get? j)))
      else dom z := by
    rw [revise_eq_some cw dom x y hxy]
  rw [revise_eq_some cw dom y x hyx] at h
  rw [revise_eq_some cw _ y x hyx]
  dsimp only at h ⊢
  rw [hd]
  dsimp only
  rw [if_neg hne, if_pos rfl]
  rw [List.any_eq_false] at h ⊢
  intro v hv
  have hsup := h v hv
  simp only [Bool.not_eq_true', Bool.not_eq_false] at hsup ⊢
  rw [List.any_eq_true] at hsup ⊢
  obtain ⟨w, hw, hcond⟩ := hsup
  simp only [Bool.and_eq_true, Bool.not_eq_true', beq_eq_false_iff_ne, ne_eq, beq_iff_eq]
    at hcond
  refine ⟨w, ?_, ?_⟩
  · refine List.mem_filter.2 ⟨hw, ?_⟩
    rw [List.any_eq_true]
    refine ⟨v, hv, ?_⟩
    simp only [Bool.and_eq_true, Bool.not_eq_true', beq_eq_false_iff_ne, ne_eq, beq_iff_eq]
    exact ⟨fun hwv => hcond.1 hwv.symm, hcond.2.symm⟩
  · simp only [Bool.and_eq_true, Bool.not_eq_true', beq_eq_false_iff_ne, ne_eq, beq_iff_eq]
    exact hcond

/-- Every neighbor arc of the model is stable under `dom`. -/
def AllStable (cw : Crossword) (dom : Domains) : Prop :=
  ∀ x ∈ cw.vars, ∀ y ∈ cw.neighbors x, StableArc cw dom x y

/-- Worklist invariant of `ac3`: every neighbor arc absent from the
worklist is already stable. -/
def QueueInv (cw : Crossword) (dom : Domains) (queue : List (Variable × Variable)) : Prop :=
  ∀ x ∈ cw.vars, ∀ y ∈ cw.neighbors x, (x, y) ∉ queue → StableArc cw dom x y

/-- Every worklist entry is a neighbor arc of the model. -/
def QueueWF (cw : Crossword) (queue : List (Variable × Variable)) : Prop :=
  ∀ p ∈ queue, p.1 ∈ cw.vars ∧ p.2 ∈ cw.neighbors p.1

/-- One-step unfolding of `ac3` on a nonempty worklist. -/
theorem ac3_cons (cw : Crossword) (fuel : Nat) (dom : Domains) (x y : Variable)
    (rest : List (Variable × Variable)) :
    ac3 cw (fuel + 1) dom ((x, y) :: rest) =
      if (revise cw dom x y).1 then
        if ((revise cw dom x y).2 x).length = 0 then (false, (revise cw dom x y).2)
        else
          ac3 cw fuel (revise cw dom x y).2
            (rest ++ ((cw.neighbors x).filter (fun neighbor => !(neighbor == y))).map
              (fun neighbor => (neighbor, x)))
      else ac3 cw fuel (revise cw dom x y).2 rest := rfl

/-- `ac3` on a stable head arc just recurses on the tail, unchanged. -/
theorem ac3_cons_unchanged (cw : Crossword) (fuel : Nat) (dom : Domains)
    (x y : Variable) (rest : List (Variable × Variable))
    (h : (revise cw dom x y).1 = false) :
    ac3 cw (fuel + 1) dom ((x, y) :: rest) = ac3 cw fuel dom rest := by
  rw [ac3_cons, h, revise_unchanged cw dom x y h]
  simp

/-- `ac3` on a revised, still-nonempty head arc recurses with the new
domains and the re-enqueued reverse arcs. -/
theorem ac3_cons_changed (cw : Crossword) (fuel : Nat) (dom : Domains)
    (x y : Variable) (rest : List (Variable × Variable))
    (h : (revise cw dom x y).1 = true)
    (hne : ((revise cw dom x y).2 x).length ≠ 0) :
    ac3 cw (fuel + 1) dom ((x, y) :: rest) =
      ac3 cw fuel (revise cw dom x y).2
        (rest ++ ((cw.neighbors x).filter (fun neighbor => !(neighbor == y))).map
          (fun neighbor => (neighbor, x))) := by
  rw [ac3_cons, h]
  simp [hne]

/-- When `ac3` drains its worklist and returns `true`, every neighbor arc
of the model is stable under the resulting domain store. -/
theorem ac3_true_allStable (cw : Crossword) (hwf : cw.WF) :
    ∀ (fuel : Nat) (dom : Domains) (queue : List (Variable × Variable)),
      QueueWF cw queue → QueueInv cw dom queue → (ac3 cw fuel dom queue).1 = true →
      AllStable cw (ac3 cw fuel dom queue).2 := by
  obtain ⟨hnd, hsub, hirr, hsym, hovs⟩ := hwf
  intro fuel
  induction fuel with
  | zero =>
    intro dom queue _ _ htrue
    exact absurd htrue (by simp [ac3])
  | succ fuel ih =>
    intro dom queue hqwf hqinv htrue
    rcases queue with _ | ⟨⟨x, y⟩, rest⟩
    · simp only [ac3]
      intro p hp q hq
      exact hqinv p hp q hq (List.not_mem_nil _)
    · have hx : x ∈ cw.vars := (hqwf (x, y) (List.mem_cons_self _ _)).1
      have hy : y ∈ cw.neighbors x := (hqwf (x, y) (List.mem_cons_self _ _)).2
      have hyne : y ≠ x := fun h => hirr x hx (h ▸ hy)
      rcases Or.symm (Bool.eq_false_or_eq_true ((revise cw dom x y).1)) with hchanged | hchanged
      · rw [ac3_cons_unchanged cw fuel dom x y rest hchanged] at htrue ⊢
        refine ih dom rest (fun p hp => hqwf p (List.mem_cons_of_mem _ hp)) ?_ htrue
        intro p hp q hq hnotin
        by_cases hpq : (p, q) = (x, y)
        · have hpx : p = x := congrArg Prod.fst hpq
          have hqy : q = y := congrArg Prod.snd hpq
          subst hpx; subst hqy
          exact hchanged
        · refine hqinv p hp q hq (fun hmem => ?_)
          rcases List.mem_cons.1 hmem with h | h
          · exact hpq h
          · exact hnotin h
      · by_cases hempty : ((revise cw dom x y).2 x).length = 0
        · rw [ac3_cons, hchanged] at htrue
          simp [hempty] at htrue
        · rw [ac3_cons_changed cw fuel dom x y rest hchanged hempty] at htrue ⊢
          obtain ⟨⟨i, j⟩, hovxy⟩ := revise_changed_overlap cw dom x y hchanged
          refine ih _ _ ?_ ?_ htrue
          · intro p hp
            rcases List.mem_append.1 hp with h | h
            · exact hqwf p (List.mem_cons_of_mem _ h)
            · rw [List.mem_map] at h
              obtain ⟨n, hn, rfl⟩ := h
              have hn1 : n ∈ cw.neighbors x := (List.mem_filter.1 hn).1
              exact ⟨hsub x hx n hn1, hsym x hx n hn1⟩
          · intro p hp q hq hnotin
            rw [List.mem_append] at hnotin
            push_neg at hnotin
            by_cases hpx : p = x
            · subst hpx
              by_cases hqy : q = y
              · subst hqy
                exact revise_post_stable cw dom hyne
              · have hqnp : q ≠ p := fun h => hirr p hp (h ▸ hq)
                have hst : StableArc cw dom p q := by
                  refine hqinv p hp q hq (fun hmem => ?_)
                  rcases List.mem_cons.1 hmem with h | h
                  · exact hqy (congrArg Prod.snd h)
                  · exact hnotin.1 h
                refine StableArc_mono cw (fun w hw => revise_subset cw dom p y p hw)
                  (revise_frame cw dom p y q hqnp) hst
            · by_cases hqx : q = x
              · subst hqx
                have hpnq : p ∈ cw.neighbors q := hsym p hp q hq
                by_cases hpy : p = y
                · subst hpy
                  have hst : StableArc cw dom p q := by
                    refine hqinv p hp q hq (fun hmem => ?_)
                    rcases List.mem_cons.1 hmem with h | h
                    · exact hyne (congrArg Prod.fst h)
                    · exact hnotin.1 h
                  have hovqp : cw.overlaps p q = some (j, i) := by
                    have := hovs q (hsub p hp q hq) p hp
                    rw [hovxy] at this
                    exact this
                  exact revise_reverse_stable cw dom hovxy hovqp hyne hst
                · exfalso
                  refine hnotin.2 ?_
                  rw [List.mem_map]
                  refine ⟨p, List.mem_filter.2 ⟨hpnq, ?_⟩, rfl⟩
                  simp [hpy]
              · have hst : StableArc cw dom p q := by
                  refine hqinv p hp q hq (fun hmem => ?_)
                  rcases List.mem_cons.1 hmem with h | h
                  · exact hpx (congrArg Prod.fst h)
                  · exact hnotin.1 h
                refine StableArc_mono cw (fun w hw => ?_)
                  (revise_frame cw dom x y q hqx) hst
                rw [revise_frame cw dom x y p hpx] at hw
                exact hw

/-- On a domain store whose neighbor arcs are all stable, `ac3` pops its
whole worklist without changing anything and returns `true`. -/
theorem ac3_stable_run (cw : Crossword) :
    ∀ (fuel : Nat) (queue : List (Variable × Variable)) (dom : Domains),
      QueueWF cw queue → AllStable cw dom → queue.length < fuel →
      ac3 cw fuel dom queue = (true, dom) := by
  intro fuel
  induction fuel with
  | zero =>
    intro queue dom _ _ hlen
    exact absurd hlen (Nat.not_lt_zero _)
  | succ fuel ih =>
    intro queue dom hqwf hall hlen
    rcases queue with _ | ⟨⟨x, y⟩, rest⟩
    · rfl
    · have hx : x ∈ cw.vars := (hqwf (x, y) (List.mem_cons_self _ _)).1
      have hy : y ∈ cw.neighbors x := (hqwf (x, y) (List.mem_cons_self _ _)).2
      have hst : StableArc cw dom x y := hall x hx y hy
      rw [ac3_cons_unchanged cw fuel dom x y rest hst]
      refine ih rest dom (fun p hp => hqwf p (List.mem_cons_of_mem _ hp)) hall ?_
      exact Nat.lt_of_succ_lt_succ hlen

/-- Every ordered neighbor pair (with distinct endpoints) is on the initial
worklist. -/
theorem mem_initial_arcs (cw : Crossword) {x y : Variable} (hx : x ∈ cw.vars)
    (hy : y ∈ cw.neighbors x) (hne : y ≠ x) : (x, y) ∈ initial_arcs cw := by
  unfold initial_arcs
  rw [List.mem_flatMap]
  refine ⟨x, hx, ?_⟩
  rw [List.mem_map]
  refine ⟨y, List.mem_filter.2 ⟨hy, ?_⟩, rfl⟩
  simp [hne]

/-- The initial worklist consists of neighbor arcs. -/
theorem initial_arcs_QueueWF (cw : Crossword) : QueueWF cw (initial_arcs cw) := by
  intro p hp
  unfold initial_arcs at hp
  rw [List.mem_flatMap] at hp
  obtain ⟨v, hv, hp⟩ := hp
  rw [List.mem_map] at hp
  obtain ⟨n, hn, rfl⟩ := hp
  exact ⟨hv, (List.mem_filter.1 hn).1⟩

/-- C9: re-running node consistency after node consistency removes nothing,
and after a completed `ac3` run over all arcs that returned `true` (an
already-consistent domain set), re-running `ac3` over all arcs removes no
value: the domain store after the second run equals the one before it. -/
theorem preprocessing_idempotent (cw : Crossword) (dom : Domains)
    (fuel fuel2 : Nat) (hwf : cw.WF) (hfuel2 : (initial_arcs cw).length < fuel2)
    (htrue : (ac3 cw fuel dom (initial_arcs cw)).1 = true) :
    enforce_node_consistency (enforce_node_consistency dom) = enforce_node_consistency dom ∧
    ac3 cw fuel2 (ac3 cw fuel dom (initial_arcs cw)).2 (initial_arcs cw) =
      (true, (ac3 cw fuel dom (initial_arcs cw)).2) := by
  refine ⟨enforce_node_consistency_idem dom, ?_⟩
  have hqwf := initial_arcs_QueueWF cw
  have hirr := hwf.2.2.1
  have hqinv : QueueInv cw dom (initial_arcs cw) := by
    intro x hx y hy hnot
    have hne : y ≠ x := fun h => hirr x hx (h ▸ hy)
    exact absurd (mem_initial_arcs cw hx hy hne) hnot
  have hall := ac3_true_allStable cw hwf fuel dom (initial_arcs cw) hqwf hqinv htrue
  exact ac3_stable_run cw fuel2 (initial_arcs cw) _ hqwf hall hfuel2

/-- The spec's satisfiable crossing scenario: two length-3 slots crossing
with offsets (1, 0) and vocabulary {"cat", "art"}. -/
def cwPair : Crossword :=
  { vars := [varA, varB]
    words := [['c', 'a', 't'], ['a', 'r', 't']]
    overlaps := fun x y =>
      if x = varA ∧ y = varB then some (1, 0)
      else if x = varB ∧ y = varA then some (0, 1)
      else none
    neighbors := fun x => if x = varA then [varB] else if x = varB then [varA] else [] }

/-- The domain store of `cwPair` after node consistency. -/
def domPair : Domains := enforce_node_consistency (init_domains cwPair)

/-- Witness for C9 on `cwPair`: its first `ac3` run over all arcs returns
`true`, and the theorem then gives both idempotence statements. -/
theorem preprocessing_idempotent_witness :
    cwPair.WF ∧ (initial_arcs cwPair).length < 10 ∧
    (ac3 cwPair 10 domPair (initial_arcs cwPair)).1 = true ∧
    (enforce_node_consistency (enforce_node_consistency domPair) =
        enforce_node_consistency domPair ∧
      ac3 cwPair 10 (ac3 cwPair 10 domPair (initial_arcs cwPair)).2 (initial_arcs cwPair) =
        (true, (ac3 cwPair 10 domPair (initial_arcs cwPair)).2)) :=
  ⟨by decide, by decide, by decide,
    preprocessing_idempotent cwPair domPair 10 10 (by decide) (by decide) (by decide)⟩

/-! ### C6: characterization of `order_domain_values` -/

theorem flatMap_congr_mem {α β : Type} {l : List α} {f g : α → List β}
    (h : ∀ a ∈ l, f a = g a) : l.flatMap f = l.flatMap g := by
  induction l with
  | nil => rfl
  | cons a l ih =>
    simp only [List.flatMap_cons]
    rw [h a (List.mem_cons_self _ _), ih (fun b hb => h b (List.mem_cons_of_mem _ hb))]

theorem pairwise_of_forall_mem {α : Type} {R : α → α → Prop} :
    ∀ {l : List α}, (∀ a ∈ l, ∀ b ∈ l, R a b) → l.Pairwise R := by
  intro l
  induction l with
  | nil => intro _; exact List.Pairwise.nil
  | cons a l ih =>
    intro h
    exact List.Pairwise.cons
      (fun b hb => h a (List.mem_cons_self _ _) b (List.mem_cons_of_mem _ hb))
      (ih fun a' ha' b hb =>
        h a' (List.mem_cons_of_mem _ ha') b (List.mem_cons_of_mem _ hb))

/-- Bucketing a list by a key over a duplicate-free key list covering every
element yields a permutation of the list. -/
theorem flatMap_filter_key_perm {α : Type} [DecidableEq α] (key : α → Nat) :
    ∀ (ks : List Nat) (l : List α), ks.Nodup → (∀ v ∈ l, key v ∈ ks) →
      (ks.flatMap (fun c => l.filter (fun v => key v == c))).Perm l := by
  intro ks
  induction ks with
  | nil =>
    intro l _ hcov
    have hl : l = [] :=
      List.eq_nil_iff_forall_not_mem.2 (fun a ha => (List.not_mem_nil _) (hcov a ha))
    subst hl
    simp
  | cons c ks ih =>
    intro l hnd hcov
    have hcks : c ∉ ks := (List.nodup_cons.1 hnd).1
    have hA : ∀ c' ∈ ks, l.filter (fun v => key v == c') =
        (l.filter (fun v => !(key v == c))).filter (fun v => key v == c') := by
      intro c' hc'
      have hcc : c' ≠ c := fun h => hcks (h ▸ hc')
      rw [List.filter_filter]
      refine (List.filter_congr (fun a _ => ?_)).symm
      cases h : (key a == c') with
      | false => simp
      | true =>
        have : key a = c' := by simpa using h
        simp [this, hcc]
    have hflat : ks.flatMap (fun c' => l.filter (fun v => key v == c')) =
        ks.flatMap (fun c' =>
          (l.filter (fun v => !(key v == c))).filter (fun v => key v == c')) :=
      flatMap_congr_mem hA
    simp only [List.flatMap_cons]
    rw [hflat]
    have hcov' : ∀ v ∈ l.filter (fun v => !(key v == c)), key v ∈ ks := by
      intro v hv
      obtain ⟨hvl, hvc⟩ := List.mem_filter.1 hv
      have hne : key v ≠ c := by simpa using hvc
      rcases List.mem_cons.1 (hcov v hvl) with h | h
      · exact absurd h hne
      · exact h
    have hih := ih (l.filter (fun v => !(key v == c))) (List.nodup_cons.1 hnd).2 hcov'
    exact (List.Perm.append_left _ hih).trans (List.filter_append_perm _ l)

/-- Bucketing by an ascending key list yields a list sorted ascending in
the key. -/
theorem flatMap_filter_key_sorted {α : Type} (key : α → Nat) :
    ∀ (ks : List Nat) (l : List α), ks.Pairwise (· ≤ ·) →
      (ks.flatMap (fun c => l.filter (fun v => key v == c))).Pairwise
        (fun v w => key v ≤ key w) := by
  intro ks
  induction ks with
  | nil =>
    intro l _
    simp
  | cons c ks ih =>
    intro l hs
    simp only [List.flatMap_cons]
    rw [List.pairwise_append]
    have hkey : ∀ v ∈ l.filter (fun v => key v == c), key v = c := by
      intro v hv
      have := (List.mem_filter.1 hv).2
      simpa using this
    refine ⟨pairwise_of_forall_mem (fun a ha b hb => ?_),
      ih l (List.pairwise_cons.1 hs).2, fun a ha b hb => ?_⟩
    · rw [hkey a ha, hkey b hb]
    · rw [List.mem_flatMap] at hb
      obtain ⟨c', hc', hb⟩ := hb
      have hkb : key b = c' := by simpa using (List.mem_filter.1 hb).2
      rw [hkey a ha, hkb]
      exact (List.pairwise_cons.1 hs).1 c' hc'

theorem count_eq_one_of_nodup_mem {α : Type} [BEq α] [LawfulBEq α] {l : List α} {a : α}
    (hnd : l.Nodup) (ha : a ∈ l) : l.count a = 1 := by
  induction l with
  | nil => cases ha
  | cons b l ih =>
    rw [List.count_cons]
    rcases List.mem_cons.1 ha with rfl | ha'
    · have hb : a ∉ l := (List.nodup_cons.1 hnd).1
      rw [List.count_eq_zero.2 hb]
      simp
    · have hab : a ≠ b := by
        intro h
        subst h
        exact (List.nodup_cons.1 hnd).1 ha'
      rw [ih (List.nodup_cons.1 hnd).2 ha']
      simp [Ne.symm hab]

/-- C6: for an unassigned variable, `order_domain_values` returns a
sequence containing every word of the variable's current domain exactly
once, sorted ascending by conflict score: the number of occurrences of the
word across the neighbors' domains, counted with multiplicity. -/
theorem order_domain_values_spec (cw : Crossword) (dom : Domains) (var : Variable)
    (assignment : Assignment) (hun : containsKey assignment var = false)
    (hnd : (dom var).Nodup) :
    ∃ l, order_domain_values cw dom var assignment = some l ∧
      (∀ w ∈ dom var, l.count w = 1) ∧
      (∀ w ∈ l, w ∈ dom var) ∧
      l.Pairwise (fun v w =>
        ((cw.neighbors var).flatMap (fun n => dom n)).count v ≤
        ((cw.neighbors var).flatMap (fun n => dom n)).count w) := by
  unfold order_domain_values
  rw [if_neg (by simp [hun] : ¬ containsKey assignment var = true)]
  set nv := (cw.neighbors var).flatMap (fun n => dom n) with hnv
  set key : Word → Nat := fun v => nv.count v with hkey
  set ks := (((dom var).map key).dedup).insertionSort (· ≤ ·) with hks
  refine ⟨ks.flatMap (fun c => (dom var).filter (fun v => key v == c)), rfl, ?_⟩
  have hksnd : ks.Nodup := by
    rw [hks]
    exact (List.perm_insertionSort (· ≤ ·) _).nodup_iff.2 (List.nodup_dedup _)
  have hcov : ∀ v ∈ dom var, key v ∈ ks := by
    intro v hv
    rw [hks]
    rw [(List.perm_insertionSort (· ≤ ·) _).mem_iff, List.mem_dedup]
    exact List.mem_map_of_mem key hv
  have hperm := flatMap_filter_key_perm key ks (dom var) hksnd hcov
  refine ⟨fun w hw => ?_, fun w hw => hperm.mem_iff.1 hw, ?_⟩
  · exact count_eq_one_of_nodup_mem (hperm.nodup_iff.2 hnd) (hperm.mem_iff.2 hw)
  · have hsorted : ks.Pairwise (· ≤ ·) := List.sorted_insertionSort (· ≤ ·) _
    exact flatMap_filter_key_sorted key ks (dom var) hsorted

/-- Witness for C6: `order_domain_values` on `cwPair`, variable `varA`,
empty assignment. -/
theorem order_domain_values_spec_witness :
    containsKey [] varA = false ∧ (domPair varA).Nodup ∧
    (∃ l, order_domain_values cwPair domPair varA [] = some l ∧
      (∀ w ∈ domPair varA, l.count w = 1) ∧
      (∀ w ∈ l, w ∈ domPair varA) ∧
      l.Pairwise (fun v w =>
        ((cwPair.neighbors varA).flatMap (fun n => domPair n)).count v ≤
        ((cwPair.neighbors varA).flatMap (fun n => domPair n)).count w)) :=
  ⟨by decide, by decide,
    order_domain_values_spec cwPair domPair varA [] (by decide) (by decide)⟩

/-! ### C10: `backtrack` restores the assignment on failure -/

/-- On an unassigned variable, `select_step` either keeps the state (already
assigned) or resets the candidate list to `[i]` — `min_remaining_values`
stays `none` (`inf`) forever. -/
theorem select_step_eq (dom : Domains) (assignment : Assignment)
    (c : List Variable) (i : Variable) :
    select_step dom assignment (c, none) i =
      if containsKey assignment i then (c, none) else ([i], none) := by
  unfold select_step
  by_cases h : containsKey assignment i
  · rw [if_pos h, if_pos h]
  · rw [if_neg h, if_neg h]
    rfl

/-- The candidate-collection fold ends with either the start state (all
variables assigned) or the singleton of some unassigned variable. -/
theorem select_foldl_spec (dom : Domains) (assignment : Assignment) :
    ∀ (l : List Variable) (c : List Variable),
      (l.foldl (select_step dom assignment) (c, none) = (c, none) ∧
        ∀ v ∈ l, containsKey assignment v = true) ∨
      (∃ v ∈ l, containsKey assignment v = false ∧
        l.foldl (select_step dom assignment) (c, none) = ([v], none)) := by
  intro l
  induction l with
  | nil => exact fun c => Or.inl ⟨rfl, fun v hv => absurd hv (List.not_mem_nil _)⟩
  | cons i l ih =>
    intro c
    rw [List.foldl_cons, select_step_eq]
    by_cases h : containsKey assignment i
    · rw [if_pos h]
      rcases ih c with ⟨heq, hall⟩ | ⟨v, hv, hun, heq⟩
      · refine Or.inl ⟨heq, fun v hv => ?_⟩
        rcases List.mem_cons.1 hv with rfl | hv'
        · exact h
        · exact hall v hv'
      · exact Or.inr ⟨v, List.mem_cons_of_mem _ hv, hun, heq⟩
    · rw [if_neg h]
      rcases ih [i] with ⟨heq, hall⟩ | ⟨v, hv, hun, heq⟩
      · exact Or.inr ⟨i, List.mem_cons_self _ _, Bool.eq_false_iff.2 h, heq⟩
      · exact Or.inr ⟨v, List.mem_cons_of_mem _ hv, hun, heq⟩

/-- Whatever `select_unassigned_variable` returns is an unassigned variable
of the store. -/
theorem select_some_unassigned (cw : Crossword) (dom : Domains) (a : Assignment)
    {var : Variable} (h : select_unassigned_variable cw dom a = some var) :
    var ∈ cw.vars ∧ containsKey a var = false := by
  unfold select_unassigned_variable at h
  rcases select_foldl_spec dom a cw.vars [] with ⟨heq, _⟩ | ⟨v, hv, hun, heq⟩
  · rw [heq] at h
    exact Option.noConfusion h
  · rw [heq] at h
    have hv' : some v = some var := by simpa using h
    cases hv'
    exact ⟨hv, hun⟩

/-- An incomplete assignment always yields a selected variable. -/
theorem select_of_incomplete (cw : Crossword) (dom : Domains) (a : Assignment)
    (h : assignment_complete cw a = false) :
    ∃ var, select_unassigned_variable cw dom a = some var := by
  unfold select_unassigned_variable
  rcases select_foldl_spec dom a cw.vars [] with ⟨heq, hall⟩ | ⟨v, hv, hun, heq⟩
  · exfalso
    have hTrue : assignment_complete cw a = true := List.all_eq_true.2 hall
    rw [h] at hTrue
    exact Bool.noConfusion hTrue
  · rw [heq]
    exact ⟨v, by simp⟩

/-- Inserting a fresh key and popping it restores the dict. -/
theorem dictPop_insert {a : Assignment} {k : Variable} {w : Word}
    (h : containsKey a k = false) : dictPop (dictInsert a k w) k = a := by
  unfold dictInsert dictPop
  rw [if_neg (by simp [h])]
  rw [List.filter_append]
  have hall : ∀ p ∈ a, (p.1 == k) = false := by
    intro p hp
    have := List.any_eq_false.1 h p hp
    simpa using this
  have h1 : a.filter (fun p => !(p.1 == k)) = a :=
    List.filter_eq_self.2 (fun p hp => by rw [hall p hp]; rfl)
  have h2 : List.filter (fun p => !(p.1 == k)) [(k, w)] = [] := by simp
  rw [h1, h2, List.append_nil]

/-- One-step unfolding of `backtrack` at positive fuel. -/
theorem backtrack_succ (cw : Crossword) (dom : Domains) (fuel : Nat) (a : Assignment) :
    backtrack cw dom (fuel + 1) a =
      if !(consistent cw dom a) then (none, a)
      else if assignment_complete cw a then (some a, a)
      else
        match select_unassigned_variable cw dom a with
        | none => (none, a)
        | some possible_assignment =>
          match order_domain_values cw dom possible_assignment a with
          | none => (some a, a)
          | some [] => (some a, a)
          | some (value :: rest) =>
            try_values (backtrack cw dom fuel) possible_assignment a (value :: rest) := rfl

/-- One-step unfolding of the candidate loop on a nonempty list. -/
theorem try_values_cons (bt : Assignment → Option Assignment × Assignment)
    (var : Variable) (a : Assignment) (v : Word) (rest : List Word) :
    try_values bt var a (v :: rest) =
      if (dictValues a).contains v then try_values bt var a rest
      else
        match (bt (dictInsert a var v)).1 with
        | some is_done => (some is_done, (bt (dictInsert a var v)).2)
        | none => try_values bt var (dictPop (bt (dictInsert a var v)).2 var) rest := rfl

/-- Skip step of the candidate loop: the value is already used. -/
theorem try_values_skip (bt : Assignment → Option Assignment × Assignment)
    (var : Variable) (a : Assignment) (v : Word) (rest : List Word)
    (h : (dictValues a).contains v = true) :
    try_values bt var a (v :: rest) = try_values bt var a rest := by
  rw [try_values_cons, if_pos h]

/-- Successful step of the candidate loop: the recursive call succeeded. -/
theorem try_values_hit_some (bt : Assignment → Option Assignment × Assignment)
    (var : Variable) (a : Assignment) (v : Word) (rest : List Word) {d : Assignment}
    (hskip : ¬ (dictValues a).contains v = true)
    (hr : (bt (dictInsert a var v)).1 = some d) :
    try_values bt var a (v :: rest) = (some d, (bt (dictInsert a var v)).2) := by
  rw [try_values_cons, if_neg hskip, hr]

/-- Failing step of the candidate loop: unbind and continue. -/
theorem try_values_hit_none (bt : Assignment → Option Assignment × Assignment)
    (var : Variable) (a : Assignment) (v : Word) (rest : List Word)
    (hskip : ¬ (dictValues a).contains v = true)
    (hr : (bt (dictInsert a var v)).1 = none) :
    try_values bt var a (v :: rest) =
      try_values bt var (dictPop (bt (dictInsert a var v)).2 var) rest := by
  rw [try_values_cons, if_neg hskip, hr]

/-- `backtrack` on an inconsistent assignment fails in place. -/
theorem backtrack_succ_inconsistent (cw : Crossword) (dom : Domains) (fuel : Nat)
    (a : Assignment) (h : consistent cw dom a = false) :
    backtrack cw dom (fuel + 1) a = (none, a) := by
  rw [backtrack_succ, if_pos (by simp [h])]

/-- `backtrack` on a complete consistent assignment succeeds in place. -/
theorem backtrack_succ_complete (cw : Crossword) (dom : Domains) (fuel : Nat)
    (a : Assignment) (h1 : consistent cw dom a = true)
    (h2 : assignment_complete cw a = true) :
    backtrack cw dom (fuel + 1) a = (some a, a) := by
  rw [backtrack_succ, if_neg (by simp [h1]), if_pos h2]

/-- `backtrack` with an empty ordered candidate list: the defect branch,
returning the current (incomplete) assignment. -/
theorem backtrack_succ_empty_candidates (cw : Crossword) (dom : Domains) (fuel : Nat)
    (a : Assignment) {var : Variable} (h1 : consistent cw dom a = true)
    (h2 : assignment_complete cw a = false)
    (hsel : select_unassigned_variable cw dom a = some var)
    (hord : order_domain_values cw dom var a = some []) :
    backtrack cw dom (fuel + 1) a = (some a, a) := by
  rw [backtrack_succ, if_neg (by simp [h1]), if_neg (by simp [h2]), hsel]
  dsimp only
  rw [hord]

/-- `backtrack` when `order_domain_values` returns the non-list `False`:
also the defect branch. -/
theorem backtrack_succ_order_falsy (cw : Crossword) (dom : Domains) (fuel : Nat)
    (a : Assignment) {var : Variable} (h1 : consistent cw dom a = true)
    (h2 : assignment_complete cw a = false)
    (hsel : select_unassigned_variable cw dom a = some var)
    (hord : order_domain_values cw dom var a = none) :
    backtrack cw dom (fuel + 1) a = (some a, a) := by
  rw [backtrack_succ, if_neg (by simp [h1]), if_neg (by simp [h2]), hsel]
  dsimp only
  rw [hord]

/-- `backtrack` with a nonempty ordered candidate list enters the loop. -/
theorem backtrack_succ_loop (cw : Crossword) (dom : Domains) (fuel : Nat)
    (a : Assignment) {var : Variable} {v : Word} {rest : List Word}
    (h1 : consistent cw dom a = true) (h2 : assignment_complete cw a = false)
    (hsel : select_unassigned_variable cw dom a = some var)
    (hord : order_domain_values cw dom var a = some (v :: rest)) :
    backtrack cw dom (fuel + 1) a =
      try_values (backtrack cw dom fuel) var a (v :: rest) := by
  rw [backtrack_succ, if_neg (by simp [h1]), if_neg (by simp [h2]), hsel]
  dsimp only
  rw [hord]

/-- If the candidate loop fails, it leaves the assignment dict as it found
it (given the frame property of the recursive calls). -/
theorem try_values_none_frame (cw : Crossword) (dom : Domains) (fuel : Nat)
    (hbt : ∀ a, (backtrack cw dom fuel a).1 = none → (backtrack cw dom fuel a).2 = a)
    (var : Variable) :
    ∀ (l : List Word) (a : Assignment), containsKey a var = false →
      (try_values (backtrack cw dom fuel) var a l).1 = none →
      (try_values (backtrack cw dom fuel) var a l).2 = a := by
  intro l
  induction l with
  | nil => intro a _ _; rfl
  | cons v rest ih =>
    intro a hun hnone
    by_cases hskip : (dictValues a).contains v
    · rw [try_values_skip _ _ _ _ _ hskip] at hnone ⊢
      exact ih a hun hnone
    · cases hr : (backtrack cw dom fuel (dictInsert a var v)).1 with
      | some d =>
        rw [try_values_hit_some _ _ _ _ _ hskip hr] at hnone
        exact Option.noConfusion hnone
      | none =>
        rw [try_values_hit_none _ _ _ _ _ hskip hr, hbt _ hr, dictPop_insert hun]
          at hnone ⊢
        exact ih a hun hnone

/-- Frame property of `backtrack`: a `None` result leaves the assignment
dict exactly as it was at the call. -/
theorem backtrack_none_frame (cw : Crossword) (dom : Domains) :
    ∀ (fuel : Nat) (a : Assignment),
      (backtrack cw dom fuel a).1 = none → (backtrack cw dom fuel a).2 = a := by
  intro fuel
  induction fuel with
  | zero => intro a _; rfl
  | succ fuel ih =>
    intro a hnone
    cases hcons : consistent cw dom a with
    | false =>
      rw [backtrack_succ_inconsistent cw dom fuel a hcons]
    | true =>
      cases hcomp : assignment_complete cw a with
      | true =>
        rw [backtrack_succ_complete cw dom fuel a hcons hcomp] at hnone
        exact Option.noConfusion hnone
      | false =>
        obtain ⟨var, hsel⟩ := select_of_incomplete cw dom a hcomp
        have hun : containsKey a var = false :=
          (select_some_unassigned cw dom a hsel).2
        cases hord : order_domain_values cw dom var a with
        | none =>
          rw [backtrack_succ_order_falsy cw dom fuel a hcons hcomp hsel hord] at hnone
          exact Option.noConfusion hnone
        | some l =>
          cases l with
          | nil =>
            rw [backtrack_succ_empty_candidates cw dom fuel a hcons hcomp hsel hord]
              at hnone
            exact Option.noConfusion hnone
          | cons v rest =>
            rw [backtrack_succ_loop cw dom fuel a hcons hcomp hsel hord] at hnone ⊢
            exact try_values_none_frame cw dom fuel ih var (v :: rest) a hun hnone

/-- C10: whenever `backtrack` returns the "no solution" sentinel, the
assignment map holds exactly the same bindings after the call as before it:
every tentative binding has been removed again. -/
theorem backtrack_none_restores (cw : Crossword) (dom : Domains) (fuel : Nat)
    (a : Assignment) (h : (backtrack cw dom fuel a).1 = none) :
    (backtrack cw dom fuel a).2 = a :=
  backtrack_none_frame cw dom fuel a h

/-- Witness for C10: on `cwPair` with an inconsistent starting assignment
(the word is not in the variable's domain), `backtrack` fails and returns
the dict untouched. -/
theorem backtrack_none_restores_witness :
    (backtrack cwPair domPair 3 [(varA, ['x', 'x', 'x'])]).1 = none ∧
    (backtrack cwPair domPair 3 [(varA, ['x', 'x', 'x'])]).2 = [(varA, ['x', 'x', 'x'])] :=
  ⟨by decide, backtrack_none_restores cwPair domPair 3 [(varA, ['x', 'x', 'x'])] (by decide)⟩

/-! ### C7: soundness of failure -/

/-- The candidate solution `S` is still present in every variable's domain. -/
def SInDom (cw : Crossword) (S : Variable → Word) (dom : Domains) : Prop :=
  ∀ v ∈ cw.vars, S v ∈ dom v

/-- The partial assignment records only bindings taken from `S` on model
variables. -/
def Extends (cw : Crossword) (S : Variable → Word) (a : Assignment) : Prop :=
  ∀ p ∈ a, p.1 ∈ cw.vars ∧ p.2 = S p.1

/-- Number of still-unassigned variables: the search recursion measure. -/
def unassigned_count (cw : Crossword) (a : Assignment) : Nat :=
  (cw.vars.filter (fun v => !(containsKey a v))).length

theorem init_SInDom (cw : Crossword) (S : Variable → Word)
    (hS : ValidSolution cw S) : SInDom cw S (init_domains cw) :=
  fun v hv => (hS.1 v hv).1

theorem enforce_SInDom (cw : Crossword) (S : Variable → Word)
    (hS : ValidSolution cw S) {dom : Domains} (h : SInDom cw S dom) :
    SInDom cw S (enforce_node_consistency dom) := by
  intro v hv
  refine List.mem_filter.2 ⟨h v hv, ?_⟩
  simp [(hS.1 v hv).2]

/-- A single `revise` on a neighbor arc never removes the solution's word:
its support is the solution's word at the other end, which is distinct (the
solution is pairwise distinct) and agrees on the overlap. -/
theorem revise_SInDom (cw : Crossword) (S : Variable → Word) (hwf : cw.WF)
    (hS : ValidSolution cw S) {dom : Domains} {x y : Variable}
    (hx : x ∈ cw.vars) (hy : y ∈ cw.neighbors x) (h : SInDom cw S dom) :
    SInDom cw S (revise cw dom x y).2 := by
  obtain ⟨hnd, hsub, hirr, hsym, hovs⟩ := hwf
  intro v hv
  by_cases hvx : v = x
  · subst hvx
    rcases hov : cw.overlaps v y with _ | ⟨i, j⟩
    · rw [revise_eq_none cw dom v y hov]
      exact h v hv
    · rw [revise_eq_some cw dom v y hov]
      dsimp only
      rw [if_pos rfl]
      refine List.mem_filter.2 ⟨h v hv, ?_⟩
      rw [List.any_eq_true]
      have hyv : y ∈ cw.vars := hsub v hv y hy
      have hynx : y ≠ v := fun hh => hirr v hv (hh ▸ hy)
      refine ⟨S y, h y hyv, ?_⟩
      have hagree : overlapAgrees (cw.overlaps v y) (S v) (S y) := hS.2.1 v hv y hy
      rw [hov] at hagree
      have hdistinct : S v ≠ S y := hS.2.2 v hv y hyv (fun hh => hynx hh.symm)
      simp only [Bool.and_eq_true, Bool.not_eq_true', beq_eq_false_iff_ne, ne_eq,
        beq_iff_eq]
      exact ⟨hdistinct, hagree⟩
  · rw [revise_frame cw dom x y v hvx]
    exact h v hv

/-- Any `ac3` run — even a fuel-truncated or failing one — never removes
the solution's words from the domains. -/
theorem ac3_SInDom (cw : Crossword) (S : Variable → Word) (hwf : cw.WF)
    (hS : ValidSolution cw S) :
    ∀ (fuel : Nat) (dom : Domains) (arcs : List (Variable × Variable)),
      QueueWF cw arcs → SInDom cw S dom → SInDom cw S (ac3 cw fuel dom arcs).2
  | 0, dom, _, _, h => h
  | _ + 1, dom, [], _, h => h
  | fuel + 1, dom, (x, y) :: rest, hqwf, h => by
    have hx := (hqwf (x, y) (List.mem_cons_self _ _)).1
    have hy := (hqwf (x, y) (List.mem_cons_self _ _)).2
    have h1 : SInDom cw S (revise cw dom x y).2 := revise_SInDom cw S hwf hS hx hy h
    have hrest : QueueWF cw rest := fun p hp => hqwf p (List.mem_cons_of_mem _ hp)
    show SInDom cw S (ac3 cw (fuel + 1) dom ((x, y) :: rest)).2
    rw [ac3]
    split
    · split
      · exact h1
      · refine ac3_SInDom cw S hwf hS fuel _ _ ?_ h1
        intro p hp
        rcases List.mem_append.1 hp with hp | hp
        · exact hrest p hp
        · rw [List.mem_map] at hp
          obtain ⟨n, hn, rfl⟩ := hp
          have hn1 : n ∈ cw.neighbors x := (List.mem_filter.1 hn).1
          exact ⟨hwf.2.1 x hx n hn1, hwf.2.2.2.1 x hx n hn1⟩
    · exact ac3_SInDom cw S hwf hS fuel _ _ hrest h1

/-- Looking up an assigned key of an `S`-extending assignment yields `S`. -/
theorem lookupVal_extends {cw : Crossword} {S : Variable → Word} {a : Assignment}
    (hext : Extends cw S a) {n : Variable} (hc : containsKey a n = true) :
    lookupVal a n = some (S n) := by
  induction a with
  | nil => exact Bool.noConfusion hc
  | cons p a ih =>
    unfold lookupVal
    rw [List.find?_cons]
    cases hpn : p.1 == n with
    | true =>
      have h1 : p.1 = n := by simpa using hpn
      have h2 := (hext p (List.mem_cons_self _ _)).2
      simp [h2, h1]
    | false =>
      have hc' : containsKey a n = true := by
        unfold containsKey at hc ⊢
        rw [List.any_cons, hpn, Bool.false_or] at hc
        exact hc
      have := ih (fun q hq => hext q (List.mem_cons_of_mem _ hq)) hc'
      simpa [lookupVal] using this

/-- An assignment extending the solution passes the consistency check. -/
theorem consistent_of_extends (cw : Crossword) (dom : Domains) (S : Variable → Word)
    (hS : ValidSolution cw S) {a : Assignment} (hdom : SInDom cw S dom)
    (hext : Extends cw S a) : consistent cw dom a = true := by
  unfold consistent
  rw [List.all_eq_true]
  intro p hp
  obtain ⟨hp1, hp2⟩ := hext p hp
  rw [Bool.and_eq_true]
  constructor
  · rw [hp2]
    simpa using hdom p.1 hp1
  · rw [List.all_eq_true]
    intro n hn
    obtain ⟨hn1, hn2⟩ := List.mem_filter.1 hn
    rcases hov : cw.overlaps p.1 n with _ | ⟨i, j⟩
    · rfl
    · have hagree : overlapAgrees (cw.overlaps p.1 n) (S p.1) (S n) :=
        hS.2.1 p.1 hp1 n hn1
      rw [hov] at hagree
      have heq : (S p.1).get? i = (S n).get? j := hagree
      dsimp only
      rw [lookupVal_extends hext hn2, hp2]
      have heq' : (S p.1)[i]? = (S n)[j]? := by simpa using heq
      simp [heq']

/-- Key membership distributes over dict append. -/
theorem containsKey_append (a b : Assignment) (k : Variable) :
    containsKey (a ++ b) k = (containsKey a k || containsKey b k) := by
  unfold containsKey
  rw [List.any_append]

/-- Extending an `S`-compatible assignment by the solution's own word keeps
it `S`-compatible. -/
theorem Extends_insert (cw : Crossword) (S : Variable → Word) {a : Assignment}
    {var : Variable} (hext : Extends cw S a) (hvar : var ∈ cw.vars)
    (hun : containsKey a var = false) :
    Extends cw S (dictInsert a var (S var)) := by
  unfold dictInsert
  rw [if_neg (by simp [hun])]
  intro p hp
  rcases List.mem_append.1 hp with h | h
  · exact hext p h
  · rw [List.mem_singleton.1 h]
    exact ⟨hvar, rfl⟩

/-- Binding one more unassigned model variable strictly decreases the
number of unassigned variables. -/
theorem unassigned_count_insert (cw : Crossword) (a : Assignment) (var : Variable)
    (w : Word) (hvar : var ∈ cw.vars) (hun : containsKey a var = false) :
    unassigned_count cw (dictInsert a var w) < unassigned_count cw a := by
  unfold unassigned_count dictInsert
  rw [if_neg (by simp [hun])]
  have hpt : ∀ v : Variable, containsKey (a ++ [(var, w)]) v =
      (containsKey a v || (var == v)) := by
    intro v
    rw [containsKey_append]
    unfold containsKey
    simp
  have hsl : (cw.vars.filter (fun v => !(containsKey (a ++ [(var, w)]) v))).Sublist
      (cw.vars.filter (fun v => !(containsKey a v))) := by
    refine List.monotone_filter_right cw.vars (fun v hv => ?_)
    rw [hpt v] at hv
    simp only [Bool.not_eq_true', Bool.or_eq_false_iff] at hv
    simp [hv.1]
  refine Nat.lt_of_le_of_ne (hsl.length_le) (fun heq => ?_)
  have heql := hsl.eq_of_length heq
  have hmem : var ∈ cw.vars.filter (fun v => !(containsKey a v)) :=
    List.mem_filter.2 ⟨hvar, by simp [hun]⟩
  rw [← heql] at hmem
  have := (List.mem_filter.1 hmem).2
  rw [hpt var] at this
  simp at this

/-- For an unassigned variable, `order_domain_values` returns a list with
the same members as the variable's current domain. -/
theorem order_domain_values_some (cw : Crossword) (dom : Domains) (var : Variable)
    (a : Assignment) (hun : containsKey a var = false) :
    ∃ l, order_domain_values cw dom var a = some l ∧
      (∀ w ∈ dom var, w ∈ l) ∧ (∀ w ∈ l, w ∈ dom var) := by
  unfold order_domain_values
  rw [if_neg (by simp [hun] : ¬ containsKey a var = true)]
  set nv := (cw.neighbors var).flatMap (fun n => dom n) with hnv
  set key : Word → Nat := fun v => nv.count v with hkey
  set ks := (((dom var).map key).dedup).insertionSort (· ≤ ·) with hks
  have hksnd : ks.Nodup := by
    rw [hks]
    exact (List.perm_insertionSort (· ≤ ·) _).nodup_iff.2 (List.nodup_dedup _)
  have hcov : ∀ v ∈ dom var, key v ∈ ks := by
    intro v hv
    rw [hks, (List.perm_insertionSort (· ≤ ·) _).mem_iff, List.mem_dedup]
    exact List.mem_map_of_mem key hv
  have hperm := flatMap_filter_key_perm key ks (dom var) hksnd hcov
  exact ⟨_, rfl, fun w hw => hperm.mem_iff.2 hw, fun w hw => hperm.mem_iff.1 hw⟩

/-- If the solution's word for `var` is among the candidates, the candidate
loop cannot fail, given completeness of the recursive calls. -/
theorem try_values_finds (cw : Crossword) (dom : Domains) (S : Variable → Word)
    (hS : ValidSolution cw S) (fuel : Nat)
    (hbt : ∀ a, Extends cw S a → fuel > unassigned_count cw a →
      (backtrack cw dom fuel a).1 ≠ none)
    (var : Variable) (hvar : var ∈ cw.vars) :
    ∀ (l : List Word) (a : Assignment), Extends cw S a →
      containsKey a var = false → S var ∈ l →
      fuel + 1 > unassigned_count cw a →
      (try_values (backtrack cw dom fuel) var a l).1 ≠ none := by
  intro l
  induction l with
  | nil =>
    intro a _ _ hmem _
    exact absurd hmem (List.not_mem_nil _)
  | cons v rest ih =>
    intro a hext hun hmem hfuel
    by_cases hskip : (dictValues a).contains v
    · have hvne : v ≠ S var := by
        intro hv
        subst hv
        have hvmem : S var ∈ dictValues a := by simpa using hskip
        rw [mem_dictValues] at hvmem
        obtain ⟨p, hp, hpv⟩ := hvmem
        obtain ⟨hp1, hp2⟩ := hext p hp
        have hpvar : p.1 ≠ var := by
          intro hh
          have hck : containsKey a var = true := containsKey_iff.2 ⟨p, hp, hh⟩
          rw [hun] at hck
          exact Bool.noConfusion hck
        exact hS.2.2 p.1 hp1 var hvar hpvar (hp2 ▸ hpv)
      rw [try_values_skip _ _ _ _ _ hskip]
      have hmem' : S var ∈ rest := by
        rcases List.mem_cons.1 hmem with h | h
        · exact absurd h.symm hvne
        · exact h
      exact ih a hext hun hmem' hfuel
    · cases hr : (backtrack cw dom fuel (dictInsert a var v)).1 with
      | some d =>
        rw [try_values_hit_some _ _ _ _ _ hskip hr]
        simp
      | none =>
        by_cases hv : v = S var
        · exfalso
          subst hv
          exact hbt (dictInsert a var (S var)) (Extends_insert cw S hext hvar hun)
            (by have := unassigned_count_insert cw a var (S var) hvar hun; omega) hr
        · rw [try_values_hit_none _ _ _ _ _ hskip hr,
            backtrack_none_frame cw dom fuel _ hr, dictPop_insert hun]
          have hmem' : S var ∈ rest := by
            rcases List.mem_cons.1 hmem with h | h
            · exact absurd h.symm hv
            · exact h
          exact ih a hext hun hmem' hfuel

/-- Whenever a valid solution survives in the domains, `backtrack` cannot
report failure, provided the fuel exceeds the number of unassigned
variables. -/
theorem backtrack_finds (cw : Crossword) (dom : Domains) (S : Variable → Word)
    (hS : ValidSolution cw S) (hdom : SInDom cw S dom) :
    ∀ (fuel : Nat) (a : Assignment), Extends cw S a →
      fuel > unassigned_count cw a → (backtrack cw dom fuel a).1 ≠ none := by
  intro fuel
  induction fuel with
  | zero =>
    intro a _ h
    exact absurd h (Nat.not_lt_zero _)
  | succ fuel ih =>
    intro a hext hfuel
    have hcons : consistent cw dom a = true :=
      consistent_of_extends cw dom S hS hdom hext
    cases hcomp : assignment_complete cw a with
    | true =>
      rw [backtrack_succ_complete cw dom fuel a hcons hcomp]
      simp
    | false =>
      obtain ⟨var, hsel⟩ := select_of_incomplete cw dom a hcomp
      obtain ⟨hvar, hun⟩ := select_some_unassigned cw dom a hsel
      obtain ⟨l, hord, hsub2, _⟩ := order_domain_values_some cw dom var a hun
      have hSmem : S var ∈ l := hsub2 (S var) (hdom var hvar)
      cases l with
      | nil => exact absurd hSmem (List.not_mem_nil _)
      | cons v rest =>
        rw [backtrack_succ_loop cw dom fuel a hcons hcomp hsel hord]
        exact try_values_finds cw dom S hS fuel ih var hvar (v :: rest) a hext hun
          hSmem hfuel

/-- C7: soundness of failure: if `solve` returns the "no solution" signal,
then no complete assignment of vocabulary words to all variables exists
with matching lengths, satisfied neighbor overlaps, and pairwise-distinct
words. -/
theorem solve_none_sound (cw : Crossword) (hwf : cw.WF) (hnone : solve cw = none) :
    ¬ ∃ S : Variable → Word, ValidSolution cw S := by
  rintro ⟨S, hS⟩
  have hdom1 : SInDom cw S (enforce_node_consistency (init_domains cw)) :=
    enforce_SInDom cw S hS (init_SInDom cw S hS)
  have hdom2 : SInDom cw S
      ((ac3 cw
        (ac3_fuel cw (enforce_node_consistency (init_domains cw)) (initial_arcs cw))
        (enforce_node_consistency (init_domains cw)) (initial_arcs cw)).2) :=
    ac3_SInDom cw S hwf hS _ _ _ (initial_arcs_QueueWF cw) hdom1
  have hcount : cw.vars.length + 1 > unassigned_count cw [] := by
    unfold unassigned_count
    have := List.length_filter_le (fun v => !(containsKey [] v)) cw.vars
    omega
  have hne := backtrack_finds cw _ S hS hdom2 (cw.vars.length + 1) []
    (fun p hp => absurd hp (List.not_mem_nil _)) hcount
  exact hne hnone

/-- Witness for C7 on `cwNoCross`: a well-formed model on which `solve`
does return `none`, hence no valid solution exists (indeed the one-word
vocabulary cannot fill two slots with distinct words). -/
theorem solve_none_sound_witness :
    cwNoCross.WF ∧ solve cwNoCross = none ∧
    ¬ ∃ S : Variable → Word, ValidSolution cwNoCross S :=
  ⟨by decide, by decide, solve_none_sound cwNoCross (by decide) (by decide)⟩
